import Mathlib

/-!
Verification development for the ЖБД attendance-reconciliation engine
(`src/python/check_zbd.py`).  The Python code is shallowly embedded: pure
functions become Lean functions over `List Char` / `String`, the mutable
checker object becomes explicit state records, and Python exceptions at the
document boundary become an `Except`-style input type.  Python's
`str.lower` is modelled character-locally on the Latin and Cyrillic
alphabets this program manipulates; `str.upper` additionally carries the
full case mappings that expand one character to several (SpecialCasing:
`ß`, `ŉ`, `ǰ`, `ẚ` and the Latin ligatures FB00–FB06), so upper-casing is a
string-level operation.  Characters outside these alphabets are left
unchanged.
-/

set_option autoImplicit false
set_option linter.unusedVariables false

namespace ZBDCheck

/-! ## Character-level helpers -/

/-- Whitespace recognised by Python's `str.strip` / `re.sub(r'\s+', ...)`
(ASCII core). -/
def isPySpace (c : Char) : Bool :=
  c == ' ' || c == '\t' || c == '\n' || c == '\r' || c == '\x0b' || c == '\x0c'

/-- Lower-case table: Python `str.lower` restricted to ASCII letters and the
Ukrainian/Russian Cyrillic alphabet. -/
def lowerPairs : List (Char × Char) :=
  [('A', 'a'), ('B', 'b'), ('C', 'c'), ('D', 'd'), ('E', 'e'), ('F', 'f'), ('G', 'g'),
   ('H', 'h'), ('I', 'i'), ('J', 'j'), ('K', 'k'), ('L', 'l'), ('M', 'm'), ('N', 'n'),
   ('O', 'o'), ('P', 'p'), ('Q', 'q'), ('R', 'r'), ('S', 's'), ('T', 't'), ('U', 'u'),
   ('V', 'v'), ('W', 'w'), ('X', 'x'), ('Y', 'y'), ('Z', 'z'),
   ('А', 'а'), ('Б', 'б'), ('В', 'в'), ('Г', 'г'), ('Д', 'д'), ('Е', 'е'), ('Ж', 'ж'),
   ('З', 'з'), ('И', 'и'), ('Й', 'й'), ('К', 'к'), ('Л', 'л'), ('М', 'м'), ('Н', 'н'),
   ('О', 'о'), ('П', 'п'), ('Р', 'р'), ('С', 'с'), ('Т', 'т'), ('У', 'у'), ('Ф', 'ф'),
   ('Х', 'х'), ('Ц', 'ц'), ('Ч', 'ч'), ('Ш', 'ш'), ('Щ', 'щ'), ('Ь', 'ь'), ('Ю', 'ю'),
   ('Я', 'я'), ('Ё', 'ё'), ('Є', 'є'), ('І', 'і'), ('Ї', 'ї'), ('Ґ', 'ґ'), ('Ъ', 'ъ'),
   ('Ы', 'ы'), ('Э', 'э')]

/-- Upper-case table: Python `str.upper` restricted to the same alphabets. -/
def upperPairs : List (Char × Char) := lowerPairs.map (fun p => (p.2, p.1))

def pyLowerChar (c : Char) : Char :=
  ((lowerPairs.find? (fun p => p.1 == c)).map (fun p => p.2)).getD c

/-- The one-to-one part of Python `str.upper`. -/
def pyUpperChar (c : Char) : Char :=
  ((upperPairs.find? (fun p => p.1 == c)).map (fun p => p.2)).getD c

/-- Python `str.upper` full case mappings that expand one character into
several (Unicode SpecialCasing, Latin range): `'ß'.upper() = 'SS'`,
`'ﬆ'.upper() = 'ST'`, `'ẚ'.upper() = 'Aʾ'`, … -/
def upperExpansions : List (Char × List Char) :=
  [('ß', ['S', 'S']),
   ('ŉ', ['ʼ', 'N']),
   ('ǰ', ['J', '\u030C']),
   ('ẚ', ['A', 'ʾ']),
   ('ﬀ', ['F', 'F']),
   ('ﬁ', ['F', 'I']),
   ('ﬂ', ['F', 'L']),
   ('ﬃ', ['F', 'F', 'I']),
   ('ﬄ', ['F', 'F', 'L']),
   ('ﬅ', ['S', 'T']),
   ('ﬆ', ['S', 'T'])]

/-- The possibly-expanding uppercase image of one character. -/
def pyUpperCharFull (c : Char) : List Char :=
  match upperExpansions.find? (fun p => p.1 == c) with
  | some p => p.2
  | none => [pyUpperChar c]

/-- Python `str.upper` on a character list: concatenation of the full
uppercase image of every character. -/
def pyUpperFull : List Char → List Char
  | [] => []
  | c :: t => pyUpperCharFull c ++ pyUpperFull t

def pyLower (s : String) : String := ⟨s.data.map pyLowerChar⟩

def pyUpper (s : String) : String := ⟨pyUpperFull s.data⟩

/-! ## Whitespace collapsing and stripping (`re.sub(r'\s+', ' ', ...)` and
`str.strip`) -/

/-- One pass of `re.sub(r'\s+', ' ', ...)`: each maximal run of whitespace
becomes a single `' '`.  The flag records whether the previous character was
part of a whitespace run. -/
def collapseAux : Bool → List Char → List Char
  | _, [] => []
  | prev, c :: cs =>
    if isPySpace c then
      if prev then collapseAux true cs else ' ' :: collapseAux true cs
    else c :: collapseAux false cs

/-- Drop trailing Python whitespace. -/
def dropTrail (l : List Char) : List Char :=
  (l.reverse.dropWhile isPySpace).reverse

/-- Python `str.strip`. -/
def stripChars (l : List Char) : List Char :=
  dropTrail (l.dropWhile isPySpace)

def stripStr (s : String) : String := ⟨stripChars s.data⟩

/-- Python substring test `pat in s` on char lists. -/
def containsAux (pat : List Char) : List Char → Bool
  | [] => pat.isEmpty
  | c :: t => pat.isPrefixOf (c :: t) || containsAux pat t

/-- Python `pat in s` for strings. -/
def containsSub (s pat : String) : Bool := containsAux pat.data s.data

/-- Python `s.split('\n')`. -/
def splitLinesAux (cur : List Char) : List Char → List (List Char)
  | [] => [cur.reverse]
  | c :: t => if c = '\n' then cur.reverse :: splitLinesAux [] t else splitLinesAux (c :: cur) t

def splitLines (s : String) : List String := (splitLinesAux [] s.data).map (fun l => ⟨l⟩)

/-! ## Name normalizer (`ZBDChecker._normalize_pib`) -/

/-- The rank vocabulary `self.ranks`, in source order. -/
def ranks : List String :=
  ["солдат", "старший солдат",
   "капрал", "молодший капрал",
   "молодший сержант", "сержант", "старший сержант", "головний сержант",
   "майстер-сержант", "штаб-сержант",
   "прапорщик", "старший прапорщик",
   "молодший лейтенант", "лейтенант", "старший лейтенант", "капітан",
   "майор", "підполковник", "полковник",
   "генерал-майор", "генерал-лейтенант", "генерал-полковник", "генерал армії України"]

/-- Stable insertion (descending by length): models the placement produced by
Python's stable `sorted(..., key=len, reverse=True)`. -/
def insertLenDesc (x : String) : List String → List String
  | [] => [x]
  | y :: ys => if y.length ≤ x.length then x :: y :: ys else y :: insertLenDesc x ys

def sortLenDesc : List String → List String
  | [] => []
  | x :: xs => insertLenDesc x (sortLenDesc xs)

/-- `sorted(self.ranks, key=len, reverse=True)`. -/
def sortedRanks : List String := sortLenDesc ranks

/-- The first rank (longest-first order) whose lower-cased form is a prefix of
the lower-cased name: models the `for rank in sorted_ranks: if
pib_clean.lower().startswith(rank.lower())` loop with its `break`. -/
def rankMatch (s : String) : Option String :=
  sortedRanks.find? (fun rank => (pyLower rank).data.isPrefixOf (pyLower s).data)

/-- The cleaned name `pib_clean = re.sub(r'\s+', ' ', pib).strip()`. -/
def pibCleaned (pib : String) : String := ⟨stripChars (collapseAux false pib.data)⟩

/-- The rank-stripping loop applied to the cleaned name:
`pib_clean[len(rank):].strip()` for the first matching rank, else unchanged. -/
def stripRankOnce (s : String) : String :=
  match rankMatch s with
  | some rank => ⟨stripChars (s.data.drop rank.length)⟩
  | none => s

/-- `ZBDChecker._normalize_pib`: collapse whitespace, strip, then strip at most
one leading rank. -/
def normalizePib (pib : String) : String := stripRankOnce (pibCleaned pib)

/-! ## Payment normalizer (`ZBDChecker._normalize_payment_value`) -/

/-- The homoglyph `mapping` dict (Latin / digit → Cyrillic). -/
def paymentMap : List (Char × Char) :=
  [('A', 'А'), ('B', 'В'), ('C', 'С'), ('E', 'Е'), ('H', 'Н'), ('K', 'К'), ('M', 'М'),
   ('O', 'О'), ('P', 'Р'), ('R', 'Р'), ('T', 'Т'), ('X', 'Х'), ('Y', 'У'), ('V', 'В'),
   ('Z', 'З'), ('3', 'З'),
   ('a', 'а'), ('b', 'в'), ('c', 'с'), ('e', 'е'), ('h', 'н'), ('k', 'к'), ('m', 'м'),
   ('o', 'о'), ('p', 'р'), ('r', 'р'), ('t', 'т'), ('x', 'х'), ('y', 'у'), ('v', 'в'),
   ('z', 'з')]

/-- `mapping.get(ch, ch)`. -/
def mapPaymentChar (c : Char) : Char :=
  ((paymentMap.find? (fun p => p.1 == c)).map (fun p => p.2)).getD c

/-- `ZBDChecker._normalize_payment_value` on an optional cell value (only the
`None`-or-string shape reaches the character mapping).  The homoglyph map is
applied per character; the subsequent `''.join(...).upper()` is the
string-level full-case upper. -/
def normalizePaymentValue (value : Option String) : Option String :=
  match value with
  | none => none
  | some v =>
    let text := stripStr v
    if text = "" then none
    else some ⟨pyUpperFull (text.data.map mapPaymentChar)⟩

/-! ## Dates (`datetime.date`, `ZBDChecker._parse_date`,
`ZBDChecker._get_last_day_of_month`) -/

@[ext]
structure Date where
  year : Nat
  month : Nat
  day : Nat
deriving DecidableEq, Repr

/-- Python `date` comparison (lexicographic). -/
def dateLE (a b : Date) : Bool :=
  decide (a.year < b.year ∨ (a.year = b.year ∧
    (a.month < b.month ∨ (a.month = b.month ∧ a.day ≤ b.day))))

def dateLT (a b : Date) : Bool :=
  decide (a.year < b.year ∨ (a.year = b.year ∧
    (a.month < b.month ∨ (a.month = b.month ∧ a.day < b.day))))

def isLeapYear (y : Nat) : Bool :=
  y % 4 == 0 && (y % 100 != 0 || y % 400 == 0)

/-- `calendar.monthrange(y, m)[1]` for valid months. -/
def daysInMonth (y m : Nat) : Nat :=
  if m = 2 then (if isLeapYear y then 29 else 28)
  else if m = 4 ∨ m = 6 ∨ m = 9 ∨ m = 11 then 30
  else 31

/-- Validity check performed by the `date(year, month, day)` constructor. -/
def isValidDate (y m d : Nat) : Bool :=
  decide (1 ≤ y ∧ y ≤ 9999 ∧ 1 ≤ m ∧ m ≤ 12 ∧ 1 ≤ d ∧ d ≤ daysInMonth y m)

def digitVal (c : Char) : Option Nat :=
  if '0' ≤ c ∧ c ≤ '9' then some (c.toNat - '0'.toNat) else none

/-- Greedy-with-backtracking candidates for `\d{1,2}`: two digits first, then
one. -/
def numCands : List Char → List (Nat × List Char)
  | c1 :: c2 :: rest =>
    match digitVal c1, digitVal c2 with
    | some d1, some d2 => [(d1 * 10 + d2, rest), (d1, c2 :: rest)]
    | some d1, none => [(d1, c2 :: rest)]
    | none, _ => []
  | [c1] =>
    match digitVal c1 with
    | some d => [(d, [])]
    | none => []
  | [] => []

def firstSome {α β : Type} : List α → (α → Option β) → Option β
  | [], _ => none
  | a :: t, f =>
    match f a with
    | some b => some b
    | none => firstSome t f

def matchDot : List Char → Option (List Char)
  | '.' :: r => some r
  | _ => none

/-- Exactly `n` leading digits, as a number. -/
def exactDigits : Nat → Nat → List Char → Option Nat
  | 0, acc, _ => some acc
  | _ + 1, _, [] => none
  | n + 1, acc, c :: t =>
    match digitVal c with
    | some d => exactDigits n (acc * 10 + d) t
    | none => none

/-- Match `(\d{1,2})\.(\d{1,2})\.(\d{yd})` anchored at the current position. -/
def matchPatAt (yd : Nat) (l : List Char) : Option (Nat × Nat × Nat) :=
  firstSome (numCands l) (fun dc =>
    (matchDot dc.2).bind (fun r2 =>
      firstSome (numCands r2) (fun mc =>
        (matchDot mc.2).bind (fun r4 =>
          (exactDigits yd 0 r4).map (fun y => (dc.1, mc.1, y))))))

/-- `re.search`: leftmost position at which the pattern matches. -/
def searchPat (yd : Nat) : List Char → Option (Nat × Nat × Nat)
  | [] => none
  | c :: t =>
    match matchPatAt yd (c :: t) with
    | some r => some r
    | none => searchPat yd t

/-- `ZBDChecker._parse_date`: `DD.MM.YYYY` first, then `DD.MM.YY`; an invalid
calendar date falls through to the next pattern. -/
def parseDate (s : String) : Option Date :=
  if s = "" ∨ s = "-" then none
  else
    let cleaned := (stripChars s.data).map (fun c => if c = '\n' then ' ' else c)
    let tryTwoDigitYear : Option Date :=
      match searchPat 2 cleaned with
      | some (d, m, y) =>
        if isValidDate (y + 2000) m d then some ⟨y + 2000, m, d⟩ else none
      | none => none
    match searchPat 4 cleaned with
    | some (d, m, y) =>
      let y := if y < 100 then y + 2000 else y
      if isValidDate y m d then some ⟨y, m, d⟩ else tryTwoDigitYear
    | none => tryTwoDigitYear

/-! ## Event records and the position-payment map -/

/-- One entry of `self.zbd_data[pib]`: the tuple
`(position, block, date_arrival, date_departure)`. -/
structure Rec where
  position : String
  block : String
  dateArrival : Option Date
  dateDeparture : Option Date
deriving DecidableEq, Repr

/-- Dict lookup in `self.position_payments` (insertion-ordered association
list). -/
def ppFind (pp : List (String × String)) (k : String) : Option String :=
  (pp.find? (fun e => e.1 == k)).map (fun e => e.2)

/-- `ZBDChecker._lookup_payment`: the `position` / `strip` / `lower` / `upper`
candidate chain, skipping empty keys. -/
def lookupPayment (pp : List (String × String)) (position : String) : Option String :=
  if position = "" then none
  else
    let tryKey : String → Option String := fun k => if k = "" then none else ppFind pp k
    (tryKey position).or ((tryKey (stripStr position)).or
      ((tryKey (pyLower position)).or (tryKey (pyUpper position))))

/-! ## Interval resolver (`ZBDChecker._get_expected_payment`) -/

/-- Stable insertion into an ascending date list (Python `list.sort`). -/
def insertDate (x : Date) : List Date → List Date
  | [] => [x]
  | y :: ys => if dateLE x y then x :: y :: ys else y :: insertDate x ys

def sortDates : List Date → List Date
  | [] => []
  | x :: xs => insertDate x (sortDates xs)

/-- `departures_by_position[pos]`, already sorted ascending. -/
def depsFor (records : List Rec) (pos : String) : List Date :=
  sortDates (records.filterMap (fun r =>
    if r.block = "вибув" ∧ r.position = pos then r.dateDeparture else none))

/-- `arrivals_by_position[pos]`, already sorted ascending. -/
def arrsFor (records : List Rec) (pos : String) : List Date :=
  sortDates (records.filterMap (fun r =>
    if r.block = "прибув" ∧ r.position = pos then r.dateArrival else none))

/-- Priority pass for `'обстріл'`: first shelling record whose event date
equals the checked date. -/
def shellScan (records : List Rec) (d : Date) : Option Rec :=
  records.find? (fun r => r.block == "обстріл" && r.dateArrival == some d)

/-- Priority pass for `'штурман'`: first navigator record whose single event
date (`date_arrival or date_departure`) equals the checked date. -/
def navScan (records : List Rec) (d : Date) : Option Rec :=
  records.find? (fun r => r.block == "штурман" && (r.dateArrival.or r.dateDeparture) == some d)

/-- The `[start, end]` interval computed for one non-priority record:
defaults to the month bounds, truncates a bare `Arrived` at the next
departure for the same position, infers the start of a bare `Departed` from
the latest preceding arrival for the same position, then clips to the
month. -/
def recInterval (cy cm : Nat) (all : List Rec) (r : Rec) : Date × Date :=
  let monthStart : Date := ⟨cy, cm, 1⟩
  let monthEnd : Date := ⟨cy, cm, daysInMonth cy cm⟩
  let start0 := r.dateArrival.getD monthStart
  let end0 := r.dateDeparture.getD monthEnd
  let end1 :=
    if r.block = "прибув" then
      match r.dateArrival with
      | some da =>
        match ((depsFor all r.position).filter (fun dep => dateLE da dep)).head? with
        | some md => if dateLT md end0 then md else end0
        | none => end0
      | none => end0
    else end0
  let start1 :=
    if r.block = "вибув" ∧ r.dateArrival = none then
      match r.dateDeparture with
      | some dd =>
        match ((arrsFor all r.position).filter (fun arr => dateLE arr dd)).getLast? with
        | some ia => ia
        | none => start0
      | none => start0
    else start0
  let start2 := if dateLT start1 monthStart then monthStart else start1
  let end2 := if dateLT monthEnd end1 then monthEnd else end1
  (start2, end2)

/-- The non-priority loop of `_get_expected_payment`: first record whose
interval contains the date wins. -/
def intervalPass (pp : List (String × String)) (cy cm : Nat) (all : List Rec)
    (d : Date) : List Rec → Option String
  | [] => none
  | r :: rs =>
    if r.block = "обстріл" ∨ r.block = "штурман" then intervalPass pp cy cm all d rs
    else
      let se := recInterval cy cm all r
      if dateLE se.1 d && dateLE d se.2 then lookupPayment pp r.position
      else intervalPass pp cy cm all d rs

/-- `ZBDChecker._get_expected_payment`.  `cyIn`/`cmIn` are
`self.check_year`/`self.check_month`; when either is `None` both are taken
from the checked date, as in the source. -/
def getExpectedPayment (pp : List (String × String)) (cyIn cmIn : Option Nat)
    (records : List Rec) (checkDate : Date) : Option String :=
  let cy := if cyIn = none ∨ cmIn = none then checkDate.year else cyIn.getD checkDate.year
  let cm := if cyIn = none ∨ cmIn = none then checkDate.month else cmIn.getD checkDate.month
  match shellScan records checkDate with
  | some r => lookupPayment pp r.position
  | none =>
    match navScan records checkDate with
    | some r => lookupPayment pp r.position
    | none => intervalPass pp cy cm records checkDate records

/-! ## Reporting period (`self.check_year` / `self.check_month`) -/

/-- The period fields of the checker.  `hasMonthAttr` / `hasYearAttr` model
Python attribute existence (`hasattr`), which is distinct from the stored
value being `None`; `__init__` sets both attributes to `None`, so both flags
start `true`. -/
structure PeriodState where
  hasMonthAttr : Bool
  hasYearAttr : Bool
  checkMonth : Option Nat
  checkYear : Option Nat
deriving DecidableEq, Repr

/-- State after `ZBDChecker.__init__`. -/
def initPeriod : PeriodState := ⟨true, true, none, none⟩

/-- The `month_names` dict of `_parse_zbd_word`, in insertion order. -/
def monthNames : List (String × Nat) :=
  [("січень", 1), ("січня", 1), ("лютий", 2), ("лютого", 2),
   ("березень", 3), ("березня", 3), ("квітень", 4), ("квітня", 4),
   ("травень", 5), ("травня", 5), ("червень", 6), ("червня", 6),
   ("липень", 7), ("липня", 7), ("серпень", 8), ("серпня", 8),
   ("вересень", 9), ("вересня", 9), ("жовтень", 10), ("жовтня", 10),
   ("листопад", 11), ("листопада", 11), ("грудень", 12), ("грудня", 12)]

/-- The filename heuristic of `_parse_zbd_word` (lines 238–265): scan the
lower-cased file stem for a month name; on a hit, set the month only if the
`check_month` attribute does not yet exist (`if not hasattr(self,
'check_month')`), then `break`. -/
def setMonthFromFilename (nowYear : Nat) (per : PeriodState) (stem : String) : PeriodState :=
  let filename := pyLower stem
  match monthNames.find? (fun p => containsSub filename p.1) with
  | none => per
  | some pr =>
    if !per.hasMonthAttr then
      let per1 := { per with checkMonth := some pr.2, hasMonthAttr := true }
      if !per1.hasYearAttr then { per1 with checkYear := some nowYear, hasYearAttr := true }
      else per1
    else per

/-- `_parse_zbd_word` lines 290–293: on the first parsed event date, set the
period if either field is still `None`. -/
def setPeriodFromEventDate (per : PeriodState) (d : Date) : PeriodState :=
  if per.checkYear = none ∨ per.checkMonth = none then
    { per with checkYear := some d.year, checkMonth := some d.month }
  else per

/-! ## Event extraction (`ZBDChecker._parse_person_row_from_text` and the
table loop of `_parse_zbd_word`) -/

/-- The marker selected for a block at the top of
`_parse_person_row_from_text`. -/
def targetMarkerOf (block : String) : String :=
  if block = "обстріл" then "перебували:"
  else if block = "прибув" then "прибули:"
  else if block = "штурман" then "штурман:"
  else "вибули:"

/-- A line that terminates collection: any of the four section markers. -/
def isBreakLine (n : String) : Bool :=
  containsSub n "прибули:" || containsSub n "вибули:" ||
  containsSub n "водій:" || containsSub n "штурман:"

/-- The line loop of `_parse_person_row_from_text`: blank lines are skipped,
a line containing the target marker (re)starts collection and contributes
nothing itself, a later marker line stops the loop, control phrases and
short lines are filtered, every other collected line is one name. -/
def collectLoop (marker : String) : Bool → List String → List String
  | _, [] => []
  | collecting, line :: rest =>
    let l := stripStr line
    if l = "" then collectLoop marker collecting rest
    else
      let n := pyLower l
      if containsSub n marker then collectLoop marker true rest
      else if collecting && isBreakLine n then []
      else if !collecting then collectLoop marker collecting rest
      else if containsSub n "проведено" || containsSub n "ротац" then
        collectLoop marker collecting rest
      else if l.length < 5 then collectLoop marker collecting rest
      else l :: collectLoop marker collecting rest

/-- The record built for one collected name: one-day events for
`обстріл`/`штурман`, one-sided dates for `прибув`/`вибув`. -/
def mkRecFor (position block : String) (eventDate : Date) : Rec :=
  if block = "обстріл" ∨ block = "штурман" then
    ⟨position, block, some eventDate, some eventDate⟩
  else
    ⟨position, block, (if block = "прибув" then some eventDate else none),
      (if block = "вибув" then some eventDate else none)⟩

/-- `ZBDChecker._parse_person_row_from_text`: the (dead) `hasattr` guard on
the period, then the collection loop; returns the updated period and the
`(pib, record)` pairs found, in order. -/
def parsePersonRowFromText (per : PeriodState) (eventDate : Date)
    (contentText position block : String) : PeriodState × List (String × Rec) :=
  let per1 :=
    if !per.hasYearAttr || !per.hasMonthAttr then
      { per with checkYear := some eventDate.year, checkMonth := some eventDate.month,
                 hasYearAttr := true, hasMonthAttr := true }
    else per
  let pibs := collectLoop (targetMarkerOf block) false (splitLines contentText)
  (per1, pibs.map (fun pib => (pib, mkRecFor position block eventDate)))

/-- Full extraction state of the checker (everything `_parse_zbd_word`
mutates except the error list). -/
structure ExtractState where
  positionPayments : List (String × String)
  zbdData : List (String × List Rec)
  pibIndex : List (String × String)
  period : PeriodState
deriving Repr

/-- `ZBDChecker._is_position_header`. -/
def isPositionHeader (pp : List (String × String)) (text : String) : Bool :=
  pp.any (fun e => containsSub (pyLower text) (pyLower e.1))

/-- `ZBDChecker._extract_position`. -/
def extractPosition (pp : List (String × String)) (text : String) : String :=
  match pp.find? (fun e => containsSub (pyLower text) (pyLower e.1)) with
  | some e => e.1
  | none => stripStr text

/-- Dict assignment `d[k] = v` on an insertion-ordered association list. -/
def updateAssoc (l : List (String × String)) (k v : String) : List (String × String) :=
  if l.any (fun e => e.1 == k) then l.map (fun e => if e.1 == k then (k, v) else e)
  else l ++ [(k, v)]

/-- `self.zbd_data.setdefault(pib, []).append(rec)`. -/
def addRecTo (zbd : List (String × List Rec)) (pib : String) (r : Rec) :
    List (String × List Rec) :=
  if zbd.any (fun e => e.1 == pib) then
    zbd.map (fun e => if e.1 == pib then (e.1, e.2 ++ [r]) else e)
  else zbd ++ [(pib, [r])]

/-- Register one found person: append the record and refresh the normalized
index. -/
def addPerson (st : ExtractState) (pr : String × Rec) : ExtractState :=
  { st with zbdData := addRecTo st.zbdData pr.1 pr.2,
            pibIndex := updateAssoc st.pibIndex (normalizePib pr.1) pr.1 }

/-- One `_parse_person_row_from_text` call applied to the extraction state. -/
def applyParse (st : ExtractState) (eventDate : Date) (text position block : String) :
    ExtractState :=
  let pr := parsePersonRowFromText st.period eventDate text position block
  pr.2.foldl addPerson { st with period := pr.1 }

/-- `if current_position: self._parse_person_row_from_text(...)` — the parse
happens only when a position is active. -/
def parseIfPos (st : ExtractState) (eventDate : Date) (text : String)
    (pos : Option String) (block : String) : ExtractState :=
  match pos with
  | some p => applyParse st eventDate text p block
  | none => st

/-- The three sequential marker checks of one row (`прибули:` / `вибули:` /
`штурман:`), each parsing when its marker occurs and a position is active. -/
def rowParses (st : ExtractState) (eventDate : Date) (text : String)
    (pos : Option String) (low : String) : ExtractState :=
  let st1 := if containsSub low "прибули:" then parseIfPos st eventDate text pos "прибув"
             else st
  let st2 := if containsSub low "вибули:" then parseIfPos st1 eventDate text pos "вибув"
             else st1
  if containsSub low "штурман:" then parseIfPos st2 eventDate text pos "штурман" else st2

/-- The `current_block` value after the three marker checks (each check that
fires overwrites it). -/
def rowBlock (low : String) (blk : Option String) : Option String :=
  if containsSub low "штурман:" then some "штурман"
  else if containsSub low "вибули:" then some "вибув"
  else if containsSub low "прибули:" then some "прибув"
  else blk

/-- One row of the table loop in `_parse_zbd_word` (lines 301–357); threads
`current_position` / `current_block`. -/
def processRow (st : ExtractState) (eventDate : Date)
    (posBlk : Option String × Option String) (cells : List String) :
    ExtractState × (Option String × Option String) :=
  if cells.length < 2 then (st, posBlk)
  else
    let cellText := stripStr (cells.getD 1 "")
    if cellText = "" then (st, posBlk)
    else
      let pos1 :=
        if isPositionHeader st.positionPayments cellText then
          some (extractPosition st.positionPayments cellText)
        else posBlk.1
      let low := pyLower cellText
      if pos1 = some "обстріл" ∧ containsSub low "перебували:" then
        (applyParse st eventDate cellText "обстріл" "обстріл", (pos1, posBlk.2))
      else
        (rowParses st eventDate cellText pos1 low, (pos1, rowBlock low posBlk.2))

/-- The row loop over one day-table. -/
def rowLoop (eventDate : Date) : ExtractState → Option String → Option String →
    List (List String) → ExtractState
  | st, _, _, [] => st
  | st, pos, blk, row :: rows =>
    let r := processRow st eventDate (pos, blk) row
    rowLoop eventDate r.1 r.2.1 r.2.2 rows

/-- One day-table of `_parse_zbd_word`: read the date from row 2 / column 0,
update the period on the first parsed date, skip the table when no date was
found. -/
def processTable (st : ExtractState) (table : List (List String)) : ExtractState :=
  let ed :=
    if table.length > 2 ∧ (table.getD 2 []).length > 0 then
      parseDate (stripStr ((table.getD 2 []).getD 0 ""))
    else none
  match ed with
  | none => st
  | some d =>
    let st0 := { st with period := setPeriodFromEventDate st.period d }
    rowLoop d st0 none none table

/-- The body of `_parse_zbd_word` for a readable document: the filename
heuristic, then every table. -/
def parseZbdWordOk (nowYear : Nat) (st : ExtractState) (stem : String)
    (doc : List (List (List String))) : ExtractState :=
  let st0 := { st with period := setMonthFromFilename nowYear st.period stem }
  doc.foldl processTable st0

/-- A source document as seen at the `try` boundary of `_parse_zbd_word`:
missing on disk, raising while being opened/parsed, or readable. -/
inductive FileInput where
  | missing
  | raises (msg : String)
  | ok (doc : List (List (List String)))

structure WordFile where
  name : String
  stem : String

/-- Checker state including the error list. -/
structure CState where
  extract : ExtractState
  errors : List String

def wordReadError (name msg : String) : String :=
  "Помилка читання Word файлу " ++ name ++ ": " ++ msg

/-- `ZBDChecker._parse_zbd_word`: a missing file and any exception are
recorded in `self.errors` and the method returns; only a readable document
changes the extraction state.  (An exception while opening the document
occurs after the filename heuristic has run.) -/
def parseZbdWord (nowYear : Nat) (st : CState) (f : WordFile) (input : FileInput) : CState :=
  match input with
  | .missing => { st with errors := st.errors ++ ["Word файл не знайдено: " ++ f.name] }
  | .raises msg =>
    { st with
        extract := { st.extract with
          period := setMonthFromFilename nowYear st.extract.period f.stem },
        errors := st.errors ++ [wordReadError f.name msg] }
  | .ok doc => { st with extract := parseZbdWordOk nowYear st.extract f.stem doc }

/-- The `for word_file in word_files` loop of `check_files`. -/
def processWordFiles (nowYear : Nat) (st : CState) : List (WordFile × FileInput) → CState
  | [] => st
  | (f, inp) :: rest => processWordFiles nowYear (parseZbdWord nowYear st f inp) rest

/-! ## Reconciliation driver (`_check_person_in_tabel` per-cell logic and the
row scan of `_check_tabel`) -/

inductive Fill where
  | red
  | green
  | white
deriving DecidableEq, Repr

/-- Outcome for one checked cell: optional tint and optional error entry. -/
structure CellMark where
  fill : Option Fill
  err : Option String
deriving DecidableEq, Repr

def padTo (w : Nat) (n : Nat) : String :=
  let s := toString n
  ⟨List.replicate (w - s.length) '0' ++ s.data⟩

/-- Python `str(date)`: ISO `YYYY-MM-DD`. -/
def dateStr (d : Date) : String :=
  padTo 4 d.year ++ "-" ++ padTo 2 d.month ++ "-" ++ padTo 2 d.day

/-- How an optional value is rendered inside an f-string (`None` for
`None`). -/
def renderOpt (v : Option String) : String :=
  match v with
  | some s => s
  | none => "None"

def quoteChar : String := ⟨[Char.ofNat 39]⟩

/-- The mismatch message
`f"{pib}, дата {check_date}: очікувалось '{expected_err}', знайдено '{actual_err}'"`. -/
def mismatchMsg (pib : String) (d : Date) (expectedErr actualErr : String) : String :=
  pib ++ ", дата " ++ dateStr d ++ ": очікувалось " ++ quoteChar ++ expectedErr ++
    quoteChar ++ ", знайдено " ++ quoteChar ++ actualErr ++ quoteChar

/-- The per-cell comparison of `_check_person_in_tabel` (lines 712–755):
sentinel skip, the benign-actual downgrades when nothing was expected, red
mismatch with message, green confirmed match. -/
def checkCell (pib : String) (d : Date) (expectedRaw : Option String)
    (actualRaw : Option String) : CellMark :=
  let expected := normalizePaymentValue expectedRaw
  let actual := normalizePaymentValue actualRaw
  let expectedErr := match expected with
    | some e => e
    | none => renderOpt expectedRaw
  let actualErr := match actual with
    | some a => a
    | none => renderOpt (actualRaw.map stripStr)
  if expected = some "Р" ∨ expected = some "ЗВР" then ⟨none, none⟩
  else if expected ≠ actual then
    if expected = none then
      if actual = none then ⟨some Fill.white, none⟩
      else if actual = some "Р" ∨ actual = some "ЗВР" then ⟨some Fill.white, none⟩
      else if ¬(actual = some "Б" ∨ actual = some "Н") then ⟨some Fill.white, none⟩
      else ⟨some Fill.red, some (mismatchMsg pib d expectedErr actualErr)⟩
    else ⟨some Fill.red, some (mismatchMsg pib d expectedErr actualErr)⟩
  else if expected ≠ none then ⟨some Fill.green, none⟩
  else ⟨none, none⟩

/-- A column-C cell value that is falsy in Python (`if not pib: break`). -/
def isBlankCell (v : Option String) : Bool :=
  match v with
  | none => true
  | some s => s = ""

/-- Person lookup of `_check_tabel`: exact key first, then the normalized
index. -/
def findPib (zbd : List (String × List Rec)) (idx : List (String × String))
    (pib : String) : Option String :=
  if (zbd.find? (fun e => e.1 == pib)).isSome then some pib
  else ((idx.find? (fun e => e.1 == normalizePib pib)).map (fun e => e.2))

/-- The `while True` row scan of `_check_tabel` starting at row 2: stops at
the first falsy name cell; every processed row yields its stripped name and
the ЖБД match (`None` = not found). -/
def scanTabelRows (zbd : List (String × List Rec)) (idx : List (String × String)) :
    List (Option String) → List (String × Option String)
  | [] => []
  | v :: rest =>
    if isBlankCell v then []
    else
      let pib := stripStr (v.getD "")
      (pib, findPib zbd idx pib) :: scanTabelRows zbd idx rest

/-- The not-found errors appended by `_check_person_in_tabel` during the row
scan. -/
def tabelScanErrors (zbd : List (String × List Rec)) (idx : List (String × String))
    (rows : List (Option String)) : List String :=
  (scanTabelRows zbd idx rows).filterMap (fun pr =>
    match pr.2 with
    | none => some ("ПІБ не знайдено в ЖБД: " ++ pr.1)
    | some _ => none)

/-- Membership of a date in the reporting month (used to state the claims
about interval resolution). -/
def inMonth (cy cm : Nat) (d : Date) : Prop :=
  d.year = cy ∧ d.month = cm ∧ 1 ≤ d.day ∧ d.day ≤ daysInMonth cy cm

instance (cy cm : Nat) (d : Date) : Decidable (inMonth cy cm d) :=
  decidable_of_iff (d.year = cy ∧ d.month = cm ∧ 1 ≤ d.day ∧ d.day ≤ daysInMonth cy cm)
    Iff.rfl

/-! ## Predicates used by the verification (not part of the program) -/

/-- The head, if any, is not whitespace. -/
def headNoSp : List Char → Bool
  | [] => true
  | c :: _ => !isPySpace c

/-- The last character, if any, is not whitespace. -/
def lastNoSp (l : List Char) : Bool := headNoSp l.reverse

/-- Every whitespace character is a plain `' '`. -/
def onlyPlain (l : List Char) : Bool := l.all (fun c => !isPySpace c || c == ' ')

/-- No two adjacent whitespace characters. -/
def noDouble : List Char → Bool
  | [] => true
  | [_] => true
  | a :: b :: t => !(isPySpace a && isPySpace b) && noDouble (b :: t)

/-- A character list fixed by whitespace collapsing and stripping. -/
def CleanL (l : List Char) : Prop :=
  onlyPlain l = true ∧ noDouble l = true ∧ headNoSp l = true ∧ lastNoSp l = true

/-- Append one entry to the run's error list. -/
def addErr (st : CState) (e : String) : CState :=
  { st with errors := st.errors ++ [e] }

/-! # Theorems -/

/-! ## Whitespace lemmas -/

theorem noDouble_tail {c : Char} {l : List Char} (h : noDouble (c :: l) = true) :
    noDouble l = true := by
  cases l with
  | nil => rfl
  | cons b t => simp only [noDouble, Bool.and_eq_true] at h; exact h.2

theorem noDouble_cons_of {a : Char} {l : List Char} (h : noDouble l = true)
    (hh : isPySpace a = true → headNoSp l = true) : noDouble (a :: l) = true := by
  cases l with
  | nil => rfl
  | cons b t =>
    simp only [noDouble, Bool.and_eq_true]
    refine ⟨?_, h⟩
    by_cases hs : isPySpace a = true
    · have hb : isPySpace b = false := by simpa [headNoSp] using hh hs
      simp [hs, hb]
    · simp only [Bool.not_eq_true] at hs
      simp [hs]

theorem headNoSp_of_noDouble_cons {a : Char} {l : List Char}
    (h : noDouble (a :: l) = true) (hs : isPySpace a = true) : headNoSp l = true := by
  cases l with
  | nil => rfl
  | cons b t =>
    simp only [noDouble, Bool.and_eq_true, Bool.not_eq_true', Bool.and_eq_false_iff] at h
    rcases h.1 with h1 | h1
    · rw [hs] at h1; cases h1
    · simp [headNoSp, h1]

theorem onlyPlain_collapseAux : ∀ (l : List Char) (b : Bool),
    onlyPlain (collapseAux b l) = true := by
  intro l
  induction l with
  | nil => intro b; rfl
  | cons c cs ih =>
    intro b
    by_cases hs : isPySpace c = true
    · cases b with
      | true => simpa [collapseAux, hs] using ih true
      | false =>
        simp only [collapseAux, hs, if_true, if_false]
        simpa [onlyPlain] using (by simpa [onlyPlain] using ih true)
    · simp only [Bool.not_eq_true] at hs
      cases b <;>
        simpa [collapseAux, hs, onlyPlain] using (by simpa [onlyPlain] using ih false)

theorem collapse_noDouble : ∀ l : List Char,
    (∀ b, noDouble (collapseAux b l) = true) ∧ headNoSp (collapseAux true l) = true := by
  intro l
  induction l with
  | nil => exact ⟨fun b => rfl, rfl⟩
  | cons c cs ih =>
    by_cases hs : isPySpace c = true
    · constructor
      · intro b
        cases b with
        | true => simpa [collapseAux, hs] using ih.1 true
        | false =>
          simp only [collapseAux, hs, if_true, if_false]
          exact noDouble_cons_of (ih.1 true) (fun _ => ih.2)
      · simpa [collapseAux, hs] using ih.2
    · simp only [Bool.not_eq_true] at hs
      constructor
      · intro b
        cases b <;>
          · simp only [collapseAux, hs, Bool.false_eq_true, if_false]
            exact noDouble_cons_of (ih.1 false) (fun hsp => by rw [hs] at hsp; cases hsp)
      · simp [collapseAux, hs, headNoSp]

theorem headNoSp_dropWhile (l : List Char) : headNoSp (l.dropWhile isPySpace) = true := by
  induction l with
  | nil => rfl
  | cons c cs ih =>
    by_cases hs : isPySpace c = true
    · simpa [List.dropWhile_cons, hs] using ih
    · simp only [Bool.not_eq_true] at hs
      simp [List.dropWhile_cons, hs, headNoSp]

theorem noDouble_dropWhile {l : List Char} (h : noDouble l = true) :
    noDouble (l.dropWhile isPySpace) = true := by
  induction l with
  | nil => exact h
  | cons c cs ih =>
    by_cases hs : isPySpace c = true
    · simpa [List.dropWhile_cons, hs] using ih (noDouble_tail h)
    · simp only [Bool.not_eq_true] at hs
      simpa [List.dropWhile_cons, hs] using h

theorem noDouble_append_left : ∀ {a b : List Char}, noDouble (a ++ b) = true →
    noDouble a = true := by
  intro a
  induction a with
  | nil => intro b _; rfl
  | cons x xs ih =>
    intro b h
    cases xs with
    | nil => rfl
    | cons y ys =>
      simp only [List.cons_append, noDouble, Bool.and_eq_true] at h ⊢
      exact ⟨h.1, ih (by simpa using h.2)⟩

theorem noDouble_append_right : ∀ {a b : List Char}, noDouble (a ++ b) = true →
    noDouble b = true := by
  intro a
  induction a with
  | nil => intro b h; exact h
  | cons x xs ih =>
    intro b h
    exact ih (noDouble_tail (by simpa using h))

theorem noDouble_drop {l : List Char} (n : Nat) (h : noDouble l = true) :
    noDouble (l.drop n) = true :=
  noDouble_append_right (a := l.take n) (by rw [List.take_append_drop]; exact h)

theorem dropWhile_eq_self_of_headNoSp {l : List Char} (h : headNoSp l = true) :
    l.dropWhile isPySpace = l := by
  cases l with
  | nil => rfl
  | cons c cs =>
    simp only [headNoSp, Bool.not_eq_true'] at h
    simp [List.dropWhile_cons, h]

theorem dropTrail_append (l : List Char) : ∃ t, dropTrail l ++ t = l := by
  obtain ⟨t, ht⟩ := List.dropWhile_suffix (l := l.reverse) isPySpace
  refine ⟨t.reverse, ?_⟩
  unfold dropTrail
  have h2 : l = (t ++ l.reverse.dropWhile isPySpace).reverse := by
    rw [ht, List.reverse_reverse]
  conv_rhs => rw [h2]
  rw [List.reverse_append]

theorem lastNoSp_dropTrail (l : List Char) : lastNoSp (dropTrail l) = true := by
  unfold lastNoSp dropTrail
  rw [List.reverse_reverse]
  exact headNoSp_dropWhile _

theorem headNoSp_dropTrail {l : List Char} (h : headNoSp l = true) :
    headNoSp (dropTrail l) = true := by
  obtain ⟨t, ht⟩ := dropTrail_append l
  cases hd : dropTrail l with
  | nil => rfl
  | cons c cs =>
    rw [hd] at ht
    rw [← ht] at h
    simpa [headNoSp] using h

theorem noDouble_dropTrail {l : List Char} (h : noDouble l = true) :
    noDouble (dropTrail l) = true := by
  obtain ⟨t, ht⟩ := dropTrail_append l
  exact noDouble_append_left (ht ▸ h)

theorem onlyPlain_of_sub {l m : List Char} (h : onlyPlain l = true)
    (hsub : ∀ x, x ∈ m → x ∈ l) : onlyPlain m = true := by
  simp only [onlyPlain, List.all_eq_true] at h ⊢
  exact fun x hx => h x (hsub x hx)

theorem onlyPlain_dropTrail {l : List Char} (h : onlyPlain l = true) :
    onlyPlain (dropTrail l) = true := by
  obtain ⟨t, ht⟩ := dropTrail_append l
  exact onlyPlain_of_sub h (fun x hx => by rw [← ht]; exact List.mem_append_left _ hx)

theorem dropTrail_eq_self {l : List Char} (h : lastNoSp l = true) : dropTrail l = l := by
  unfold dropTrail
  rw [dropWhile_eq_self_of_headNoSp h, List.reverse_reverse]

theorem headNoSp_stripChars (l : List Char) : headNoSp (stripChars l) = true :=
  headNoSp_dropTrail (headNoSp_dropWhile l)

theorem lastNoSp_stripChars (l : List Char) : lastNoSp (stripChars l) = true :=
  lastNoSp_dropTrail _

theorem noDouble_stripChars {l : List Char} (h : noDouble l = true) :
    noDouble (stripChars l) = true :=
  noDouble_dropTrail (noDouble_dropWhile h)

theorem onlyPlain_stripChars {l : List Char} (h : onlyPlain l = true) :
    onlyPlain (stripChars l) = true := by
  obtain ⟨t, ht⟩ := List.dropWhile_suffix (l := l) isPySpace
  refine onlyPlain_dropTrail (onlyPlain_of_sub h ?_)
  intro x hx
  rw [← ht]
  exact List.mem_append_right _ hx

theorem stripChars_eq_self {l : List Char} (hh : headNoSp l = true)
    (hl : lastNoSp l = true) : stripChars l = l := by
  unfold stripChars
  rw [dropWhile_eq_self_of_headNoSp hh, dropTrail_eq_self hl]

theorem collapseAux_eq_self : ∀ {l : List Char}, onlyPlain l = true → noDouble l = true →
    (collapseAux false l = l ∧ (headNoSp l = true → collapseAux true l = l)) := by
  intro l
  induction l with
  | nil => exact fun _ _ => ⟨rfl, fun _ => rfl⟩
  | cons c cs ih =>
    intro hp hd
    have hp' : onlyPlain cs = true := by
      simp only [onlyPlain, List.all_cons, Bool.and_eq_true] at hp
      exact hp.2
    have hd' : noDouble cs = true := noDouble_tail hd
    by_cases hs : isPySpace c = true
    · have hc : c = ' ' := by
        simp only [onlyPlain, List.all_cons, Bool.and_eq_true, Bool.or_eq_true,
          Bool.not_eq_true'] at hp
        rcases hp.1 with h1 | h1
        · rw [hs] at h1; cases h1
        · exact eq_of_beq h1
      have htail : collapseAux true cs = cs :=
        (ih hp' hd').2 (headNoSp_of_noDouble_cons hd hs)
      constructor
      · subst hc
        simp [collapseAux, hs, htail]
      · intro hh
        simp only [headNoSp, Bool.not_eq_true'] at hh
        rw [hh] at hs; cases hs
    · simp only [Bool.not_eq_true] at hs
      have htail : collapseAux false cs = cs := (ih hp' hd').1
      exact ⟨by simp [collapseAux, hs, htail], fun _ => by simp [collapseAux, hs, htail]⟩

theorem cleanL_stripChars_collapse (l : List Char) :
    CleanL (stripChars (collapseAux false l)) :=
  ⟨onlyPlain_stripChars (onlyPlain_collapseAux l false),
   noDouble_stripChars ((collapse_noDouble l).1 false),
   headNoSp_stripChars _, lastNoSp_stripChars _⟩

theorem cleanL_drop_strip {l : List Char} (n : Nat) (hp : onlyPlain l = true)
    (hd : noDouble l = true) : CleanL (stripChars (l.drop n)) :=
  ⟨onlyPlain_stripChars (onlyPlain_of_sub hp (fun _ hx => List.mem_of_mem_drop hx)),
   noDouble_stripChars (noDouble_drop n hd),
   headNoSp_stripChars _, lastNoSp_stripChars _⟩

theorem cleanL_stripRankOnce {s : String} (h : CleanL s.data) :
    CleanL (stripRankOnce s).data := by
  unfold stripRankOnce
  cases hr : rankMatch s with
  | none => exact h
  | some rank => exact cleanL_drop_strip _ h.1 h.2.1

theorem cleanL_normalizePib (x : String) : CleanL (normalizePib x).data :=
  cleanL_stripRankOnce (cleanL_stripChars_collapse x.data)

theorem pibCleaned_of_clean {s : String} (h : CleanL s.data) : pibCleaned s = s := by
  unfold pibCleaned
  rw [(collapseAux_eq_self h.1 h.2.1).1, stripChars_eq_self h.2.2.1 h.2.2.2]

/-! ## Character lemmas for the payment normalizer -/

theorem paymentMap_image_fixed : ∀ p ∈ paymentMap,
    mapPaymentChar (pyUpperChar p.2) = pyUpperChar p.2 ∧
    pyUpperChar (pyUpperChar p.2) = pyUpperChar p.2 ∧
    isPySpace (pyUpperChar p.2) = false := by decide

theorem upperPairs_nonkey : ∀ q ∈ upperPairs,
    (paymentMap.find? (fun p => p.1 == q.1)).isSome = true ∨
    (mapPaymentChar q.2 = q.2 ∧ pyUpperChar q.2 = q.2) := by decide

theorem upperPairs_nospace : ∀ q ∈ upperPairs, isPySpace q.2 = false := by decide

theorem payment_char_fixed (c : Char) :
    mapPaymentChar (pyUpperChar (mapPaymentChar c)) = pyUpperChar (mapPaymentChar c) ∧
    pyUpperChar (pyUpperChar (mapPaymentChar c)) = pyUpperChar (mapPaymentChar c) := by
  rcases hf : paymentMap.find? (fun p => p.1 == c) with _ | p
  · have hc : mapPaymentChar c = c := by simp [mapPaymentChar, hf]
    rw [hc]
    rcases hg : upperPairs.find? (fun p => p.1 == c) with _ | q
    · have hu : pyUpperChar c = c := by simp [pyUpperChar, hg]
      rw [hu]
      exact ⟨hc, hu⟩
    · have hq1 : q.1 = c := by
        have := List.find?_some hg
        exact eq_of_beq (by simpa using this)
      have hqmem := List.mem_of_find?_eq_some hg
      have hu : pyUpperChar c = q.2 := by simp [pyUpperChar, hg]
      rcases upperPairs_nonkey q hqmem with hk | ⟨hm, hu2⟩
      · rw [hq1, hf] at hk
        cases hk
      · rw [hu]
        exact ⟨hm, hu2⟩
  · have hp : mapPaymentChar c = p.2 := by simp [mapPaymentChar, hf]
    have hmem := List.mem_of_find?_eq_some hf
    obtain ⟨h1, h2, _⟩ := paymentMap_image_fixed p hmem
    rw [hp]
    exact ⟨h1, h2⟩

theorem payment_char_nospace {c : Char} (h : isPySpace c = false) :
    isPySpace (pyUpperChar (mapPaymentChar c)) = false := by
  rcases hf : paymentMap.find? (fun p => p.1 == c) with _ | p
  · have hc : mapPaymentChar c = c := by simp [mapPaymentChar, hf]
    rw [hc]
    rcases hg : upperPairs.find? (fun p => p.1 == c) with _ | q
    · have hu : pyUpperChar c = c := by simp [pyUpperChar, hg]
      rw [hu]
      exact h
    · have hu : pyUpperChar c = q.2 := by simp [pyUpperChar, hg]
      rw [hu]
      exact upperPairs_nospace q (List.mem_of_find?_eq_some hg)
  · have hp : mapPaymentChar c = p.2 := by simp [mapPaymentChar, hf]
    rw [hp]
    exact (paymentMap_image_fixed p (List.mem_of_find?_eq_some hf)).2.2

theorem headNoSp_map_payment {l : List Char} (h : headNoSp l = true) :
    headNoSp (l.map (fun c => pyUpperChar (mapPaymentChar c))) = true := by
  cases l with
  | nil => rfl
  | cons c t =>
    simp only [headNoSp, Bool.not_eq_true'] at h
    simpa [headNoSp, List.map_cons] using payment_char_nospace h

theorem lastNoSp_map_payment {l : List Char} (h : lastNoSp l = true) :
    lastNoSp (l.map (fun c => pyUpperChar (mapPaymentChar c))) = true := by
  unfold lastNoSp at h ⊢
  rw [← List.map_reverse]
  exact headNoSp_map_payment h

theorem string_eq_empty_iff (l : List Char) : (⟨l⟩ : String) = "" ↔ l = [] := by
  constructor
  · intro h
    have := congrArg String.data h
    simpa using this
  · intro h
    rw [h]

theorem paymentMap_values_nonexpansion : ∀ p ∈ paymentMap,
    upperExpansions.find? (fun q => q.1 == p.2) = none := by decide

theorem paymentMap_upper_values_nonexpansion : ∀ p ∈ paymentMap,
    upperExpansions.find? (fun q => q.1 == pyUpperChar p.2) = none := by decide

theorem upperPairs_values_nonexpansion : ∀ q ∈ upperPairs,
    upperExpansions.find? (fun r => r.1 == q.2) = none := by decide

theorem mapPayment_nonexpansion {c : Char}
    (h : upperExpansions.find? (fun p => p.1 == c) = none) :
    upperExpansions.find? (fun p => p.1 == mapPaymentChar c) = none := by
  rcases hf : paymentMap.find? (fun p => p.1 == c) with _ | p
  · have hc : mapPaymentChar c = c := by simp [mapPaymentChar, hf]
    rw [hc]
    exact h
  · have hp : mapPaymentChar c = p.2 := by simp [mapPaymentChar, hf]
    rw [hp]
    exact paymentMap_values_nonexpansion p (List.mem_of_find?_eq_some hf)

theorem payment_char_nonexpansion {c : Char}
    (h : upperExpansions.find? (fun p => p.1 == c) = none) :
    upperExpansions.find? (fun p => p.1 == pyUpperChar (mapPaymentChar c)) = none := by
  rcases hf : paymentMap.find? (fun p => p.1 == c) with _ | p
  · have hc : mapPaymentChar c = c := by simp [mapPaymentChar, hf]
    rw [hc]
    rcases hg : upperPairs.find? (fun p => p.1 == c) with _ | q
    · have hu : pyUpperChar c = c := by simp [pyUpperChar, hg]
      rw [hu]
      exact h
    · have hu : pyUpperChar c = q.2 := by simp [pyUpperChar, hg]
      rw [hu]
      exact upperPairs_values_nonexpansion q (List.mem_of_find?_eq_some hg)
  · have hp : mapPaymentChar c = p.2 := by simp [mapPaymentChar, hf]
    rw [hp]
    exact paymentMap_upper_values_nonexpansion p (List.mem_of_find?_eq_some hf)

/-- On characters with no full-case expansion, the string-level upper is the
character-wise upper. -/
theorem pyUpperFull_eq_map {l : List Char}
    (h : ∀ c ∈ l, upperExpansions.find? (fun p => p.1 == c) = none) :
    pyUpperFull l = l.map pyUpperChar := by
  induction l with
  | nil => rfl
  | cons c t ih =>
    have hc := h c (List.mem_cons_self c t)
    have ih2 := ih (fun x hx => h x (List.mem_cons_of_mem c hx))
    simp [pyUpperFull, pyUpperCharFull, hc, ih2]

/-- Idempotence of the payment normalizer on inputs free of full-case
expansion characters. -/
theorem npv_idem_of_no_expansion (s : String)
    (h : ∀ c ∈ (stripStr s).data, upperExpansions.find? (fun p => p.1 == c) = none) :
    normalizePaymentValue (normalizePaymentValue (some s)) =
      normalizePaymentValue (some s) := by
  by_cases ht : stripStr s = ""
  · simp [normalizePaymentValue, ht]
  · have hmapped : ∀ m ∈ (stripStr s).data.map mapPaymentChar,
        upperExpansions.find? (fun p => p.1 == m) = none := by
      intro m hm
      obtain ⟨c, hc, rfl⟩ := List.mem_map.mp hm
      exact mapPayment_nonexpansion (h c hc)
    have hstep : normalizePaymentValue (some s) =
        some ⟨(stripStr s).data.map (fun c => pyUpperChar (mapPaymentChar c))⟩ := by
      simp only [normalizePaymentValue, ht, if_false]
      rw [pyUpperFull_eq_map hmapped, List.map_map]
      rfl
    rw [hstep]
    set u : String := ⟨(stripStr s).data.map (fun c => pyUpperChar (mapPaymentChar c))⟩ with hu
    have hdata : u.data = (stripStr s).data.map (fun c => pyUpperChar (mapPaymentChar c)) := rfl
    have hhead : headNoSp u.data = true := by
      rw [hdata]
      exact headNoSp_map_payment (headNoSp_stripChars s.data)
    have hlast : lastNoSp u.data = true := by
      rw [hdata]
      exact lastNoSp_map_payment (lastNoSp_stripChars s.data)
    have hstrips : stripStr u = u := by
      unfold stripStr
      rw [stripChars_eq_self hhead hlast]
    have hne : u ≠ "" := by
      intro hc
      have hcl : u.data = [] := by rw [hc]
      rw [hdata] at hcl
      have h2 : (stripStr s).data = [] := List.map_eq_nil_iff.mp hcl
      exact ht (String.ext (by simpa using h2))
    have hmm : u.data.map mapPaymentChar = u.data := by
      rw [hdata, List.map_map]
      apply List.map_congr_left
      intro c hc
      show mapPaymentChar (pyUpperChar (mapPaymentChar c)) = pyUpperChar (mapPaymentChar c)
      exact (payment_char_fixed c).1
    have humem : ∀ m ∈ u.data, upperExpansions.find? (fun p => p.1 == m) = none := by
      intro m hm
      rw [hdata] at hm
      obtain ⟨c, hc, rfl⟩ := List.mem_map.mp hm
      exact payment_char_nonexpansion (h c hc)
    simp only [normalizePaymentValue]
    rw [hstrips, if_neg hne]
    congr 1
    apply String.ext
    show pyUpperFull (u.data.map mapPaymentChar) = u.data
    rw [hmm, pyUpperFull_eq_map humem, hdata, List.map_map]
    apply List.map_congr_left
    intro c hc
    show pyUpperChar (pyUpperChar (mapPaymentChar c)) = pyUpperChar (mapPaymentChar c)
    exact (payment_char_fixed c).2

/-! ## Claim C6 -/

/-- C6 counterexample: the name normalizer is not idempotent on the code —
stripping is limited to one leading rank per application, so a name carrying
two stacked rank tokens changes again on the second application. -/
theorem c6_counterexample_double_rank :
    normalizePib (normalizePib "сержант сержант Іваненко") ≠
      normalizePib "сержант сержант Іваненко" := by decide

/-- C6 (amended): applying `_normalize_pib` twice gives the same result as
applying it once for every input whose once-normalized form does not itself
begin with a rank token; when it does (stacked ranks), a second application
strips another rank. -/
theorem c6_normalize_idempotent_unless_rank_remains (x : String)
    (h : rankMatch (normalizePib x) = none) :
    normalizePib (normalizePib x) = normalizePib x := by
  have h1 : pibCleaned (normalizePib x) = normalizePib x :=
    pibCleaned_of_clean (cleanL_normalizePib x)
  show stripRankOnce (pibCleaned (normalizePib x)) = normalizePib x
  rw [h1]
  unfold stripRankOnce
  rw [h]

/-- Witness for the amended C6 at a concrete name. -/
theorem c6_witness :
    rankMatch (normalizePib "старший сержант Коваль Петро") = none ∧
    normalizePib (normalizePib "старший сержант Коваль Петро") =
      normalizePib "старший сержант Коваль Петро" :=
  ⟨by decide, c6_normalize_idempotent_unless_rank_remains _ (by decide)⟩

/-! ## Claim C7 -/

/-- C7 counterexample: the payment normalizer is not idempotent on all
strings.  `str.upper` expands the ligature `ﬆ` to Latin `ST` on the first
pass; the second pass then folds that Latin `T` into Cyrillic `Т`, so
`normalizePayment(normalizePayment('ﬆ'))` is `SТ` while
`normalizePayment('ﬆ')` is `ST`. -/
theorem c7_counterexample_ligature :
    normalizePaymentValue (normalizePaymentValue (some "ﬆ")) ≠
      normalizePaymentValue (some "ﬆ") := by decide

/-- C7 (amended): the payment normalizer is total (a function on all
optional string cell values) and folds the Latin homoglyph `b` together
with Cyrillic `В`; idempotence holds for every string none of whose
(stripped) characters carries a full-case upper expansion (ligatures such
as `ﬆ`, `ß`, `ẚ`) — on such characters the first upper-casing manufactures
fresh Latin homoglyph keys that the second pass folds further. -/
theorem c7_payment_normalizer_amended :
    (∀ s : String,
      (∀ c ∈ (stripStr s).data, upperExpansions.find? (fun p => p.1 == c) = none) →
      normalizePaymentValue (normalizePaymentValue (some s)) =
        normalizePaymentValue (some s)) ∧
    normalizePaymentValue (some "b") = normalizePaymentValue (some "В") :=
  ⟨npv_idem_of_no_expansion, by decide⟩

/-- Witness for the amended C7 at a concrete expansion-free value. -/
theorem c7_witness :
    (∀ c ∈ (stripStr "зВр").data, upperExpansions.find? (fun p => p.1 == c) = none) ∧
    normalizePaymentValue (normalizePaymentValue (some "зВр")) =
      normalizePaymentValue (some "зВр") :=
  ⟨by decide, c7_payment_normalizer_amended.1 "зВр" (by decide)⟩

/-! ## Date lemmas -/

theorem dateLE_iff {a b : Date} : dateLE a b = true ↔
    (a.year < b.year ∨ (a.year = b.year ∧
      (a.month < b.month ∨ (a.month = b.month ∧ a.day ≤ b.day)))) := by
  simp [dateLE]

theorem dateLT_iff {a b : Date} : dateLT a b = true ↔
    (a.year < b.year ∨ (a.year = b.year ∧
      (a.month < b.month ∨ (a.month = b.month ∧ a.day < b.day)))) := by
  simp [dateLT]

theorem not_dateLT_monthStart {cy cm : Nat} {d : Date} (h : inMonth cy cm d) :
    dateLT d ⟨cy, cm, 1⟩ = false := by
  obtain ⟨hy, hm, hd1, _⟩ := h
  simp only [dateLT, decide_eq_false_iff_not]
  simp only [hy, hm]
  omega

theorem dateLE_monthEnd {cy cm : Nat} {d : Date} (h : inMonth cy cm d) :
    dateLE d ⟨cy, cm, daysInMonth cy cm⟩ = true := by
  obtain ⟨hy, hm, _, hd2⟩ := h
  subst hy
  subst hm
  simp [dateLE, hd2]

theorem monthStart_dateLE {cy cm : Nat} {d : Date} (h : inMonth cy cm d) :
    dateLE ⟨cy, cm, 1⟩ d = true := by
  obtain ⟨hy, hm, hd1, _⟩ := h
  subst hy
  subst hm
  simp [dateLE, hd1]

theorem not_dateLT_of_dateLE {a b : Date} (h : dateLE a b = true) : dateLT b a = false := by
  rw [dateLE_iff] at h
  simp only [dateLT, decide_eq_false_iff_not]
  omega

theorem dateEq_of_dateLE_not_dateLT {a b : Date} (hle : dateLE a b = true)
    (hlt : dateLT a b = false) : a = b := by
  rw [dateLE_iff] at hle
  simp only [dateLT, decide_eq_false_iff_not] at hlt
  ext <;> omega

/-! ## Resolver lemmas for two-record arrival/departure histories -/

theorem depsFor_pair_ad (P : String) (D1 D2 : Date) :
    depsFor [⟨P, "прибув", some D1, none⟩, ⟨P, "вибув", none, some D2⟩] P = [D2] := by
  simp [depsFor, sortDates, insertDate]

theorem depsFor_pair_da (P : String) (D1 D2 : Date) :
    depsFor [⟨P, "вибув", none, some D2⟩, ⟨P, "прибув", some D1, none⟩] P = [D2] := by
  simp [depsFor, sortDates, insertDate]

theorem arrsFor_pair_ad (P : String) (D1 D2 : Date) :
    arrsFor [⟨P, "прибув", some D1, none⟩, ⟨P, "вибув", none, some D2⟩] P = [D1] := by
  simp [arrsFor, sortDates, insertDate]

theorem arrsFor_pair_da (P : String) (D1 D2 : Date) :
    arrsFor [⟨P, "вибув", none, some D2⟩, ⟨P, "прибув", some D1, none⟩] P = [D1] := by
  simp [arrsFor, sortDates, insertDate]

theorem recInterval_arrived {cy cm : Nat} {all : List Rec} {P : String} {D1 D2 : Date}
    (hdeps : depsFor all P = [D2]) (hm1 : inMonth cy cm D1) (hm2 : inMonth cy cm D2)
    (h12 : dateLE D1 D2 = true) :
    recInterval cy cm all ⟨P, "прибув", some D1, none⟩ = (D1, D2) := by
  simp only [recInterval, hdeps, List.filter_cons, List.filter_nil, h12, if_true,
    List.head?_cons, Option.getD_none, Option.getD_some]
  simp only [show (("прибув" : String) = "прибув") = True by simp,
    show (("прибув" : String) = "вибув") = False by simp, if_true, if_false,
    false_and, and_false]
  rw [not_dateLT_monthStart hm1]
  by_cases h2 : dateLT D2 ⟨cy, cm, daysInMonth cy cm⟩ = true
  · rw [h2]
    simp only [if_true, Bool.false_eq_true, if_false]
    rw [not_dateLT_of_dateLE (dateLE_monthEnd hm2)]
    simp
  · rw [Bool.not_eq_true] at h2
    rw [h2]
    have hEq : D2 = ⟨cy, cm, daysInMonth cy cm⟩ :=
      dateEq_of_dateLE_not_dateLT (dateLE_monthEnd hm2) h2
    simp only [Bool.false_eq_true, if_false]
    rw [show dateLT (⟨cy, cm, daysInMonth cy cm⟩ : Date) ⟨cy, cm, daysInMonth cy cm⟩ = false
      from not_dateLT_of_dateLE (by rw [dateLE_iff]; omega)]
    simp [hEq]

theorem recInterval_departed {cy cm : Nat} {all : List Rec} {P : String} {D1 D2 : Date}
    (harrs : arrsFor all P = [D1]) (hm1 : inMonth cy cm D1) (hm2 : inMonth cy cm D2)
    (h12 : dateLE D1 D2 = true) :
    recInterval cy cm all ⟨P, "вибув", none, some D2⟩ = (D1, D2) := by
  simp only [recInterval, harrs, List.filter_cons, List.filter_nil, h12, if_true,
    List.getLast?_singleton, Option.getD_none, Option.getD_some]
  simp only [show (("вибув" : String) = "прибув") = False by simp,
    show (("вибув" : String) = "вибув") = True by simp, if_true, if_false, true_and]
  rw [not_dateLT_monthStart hm1, not_dateLT_of_dateLE (dateLE_monthEnd hm2)]
  simp

theorem lookupPayment_of_ppFind {pp : List (String × String)} {P c : String}
    (hP : ppFind pp P = some c) (hne : P ≠ "") : lookupPayment pp P = some c := by
  unfold lookupPayment
  rw [if_neg hne]
  simp only [if_neg hne, hP]
  rfl

/-! ## Claim C1 -/

/-- C1: interval inference.  For a person whose records are exactly one
`Arrived(P, D1)` and one `Departed(P, D2)` (either order) with `D1 < D2`,
both inside the reporting month, and `P` in the position-payment map,
`_get_expected_payment` returns the payment of `P` on every date in
`[D1, D2]` and `None` on every other date of the month. -/
theorem c1_interval_inference (pp : List (String × String)) (cy cm : Nat)
    (P c : String) (D1 D2 : Date) (records : List Rec) (d : Date)
    (hP : ppFind pp P = some c) (hPne : P ≠ "")
    (hm1 : inMonth cy cm D1) (hm2 : inMonth cy cm D2) (hlt : dateLT D1 D2 = true)
    (hrec : records = [⟨P, "прибув", some D1, none⟩, ⟨P, "вибув", none, some D2⟩] ∨
            records = [⟨P, "вибув", none, some D2⟩, ⟨P, "прибув", some D1, none⟩])
    (hd : inMonth cy cm d) :
    getExpectedPayment pp (some cy) (some cm) records d =
      if dateLE D1 d && dateLE d D2 then some c else none := by
  have h12 : dateLE D1 D2 = true := by
    rw [dateLT_iff] at hlt
    rw [dateLE_iff]
    omega
  have hlook := lookupPayment_of_ppFind hP hPne
  rcases hrec with h | h <;> subst h
  · have hri1 := recInterval_arrived (depsFor_pair_ad P D1 D2) hm1 hm2 h12
    have hri2 := recInterval_departed (arrsFor_pair_ad P D1 D2) hm1 hm2 h12
    simp only [getExpectedPayment]
    have hs : shellScan [⟨P, "прибув", some D1, none⟩, ⟨P, "вибув", none, some D2⟩] d =
        none := rfl
    have hn : navScan [⟨P, "прибув", some D1, none⟩, ⟨P, "вибув", none, some D2⟩] d =
        none := rfl
    rw [hs, hn]
    simp only [Option.getD_some, reduceCtorEq, or_self, if_false]
    simp only [intervalPass, hri1, hri2,
      show (("прибув" : String) = "обстріл" ∨ ("прибув" : String) = "штурман") = False by simp,
      show (("вибув" : String) = "обстріл" ∨ ("вибув" : String) = "штурман") = False by simp,
      if_false]
    by_cases hc : (dateLE D1 d && dateLE d D2) = true
    · rw [hc]
      simp [hlook]
    · rw [Bool.not_eq_true] at hc
      rw [hc]
      simp
  · have hri1 := recInterval_arrived (depsFor_pair_da P D1 D2) hm1 hm2 h12
    have hri2 := recInterval_departed (arrsFor_pair_da P D1 D2) hm1 hm2 h12
    simp only [getExpectedPayment]
    have hs : shellScan [⟨P, "вибув", none, some D2⟩, ⟨P, "прибув", some D1, none⟩] d =
        none := rfl
    have hn : navScan [⟨P, "вибув", none, some D2⟩, ⟨P, "прибув", some D1, none⟩] d =
        none := rfl
    rw [hs, hn]
    simp only [Option.getD_some, reduceCtorEq, or_self, if_false]
    simp only [intervalPass, hri1, hri2,
      show (("прибув" : String) = "обстріл" ∨ ("прибув" : String) = "штурман") = False by simp,
      show (("вибув" : String) = "обстріл" ∨ ("вибув" : String) = "штурман") = False by simp,
      if_false]
    by_cases hc : (dateLE D1 d && dateLE d D2) = true
    · rw [hc]
      simp [hlook]
    · rw [Bool.not_eq_true] at hc
      rw [hc]
      simp

/-- Witness for C1 at a concrete history: arrival 05.09.2025, departure
20.09.2025, position paid `Б`; the 10th resolves to `Б` and the 25th to
`None`. -/
theorem c1_witness :
    getExpectedPayment [("ВП Маріо", "Б")] (some 2025) (some 9)
        [⟨"ВП Маріо", "прибув", some ⟨2025, 9, 5⟩, none⟩,
         ⟨"ВП Маріо", "вибув", none, some ⟨2025, 9, 20⟩⟩] ⟨2025, 9, 10⟩ =
      (if dateLE ⟨2025, 9, 5⟩ ⟨2025, 9, 10⟩ && dateLE ⟨2025, 9, 10⟩ ⟨2025, 9, 20⟩
       then some "Б" else none) ∧
    getExpectedPayment [("ВП Маріо", "Б")] (some 2025) (some 9)
        [⟨"ВП Маріо", "прибув", some ⟨2025, 9, 5⟩, none⟩,
         ⟨"ВП Маріо", "вибув", none, some ⟨2025, 9, 20⟩⟩] ⟨2025, 9, 25⟩ =
      (if dateLE ⟨2025, 9, 5⟩ ⟨2025, 9, 25⟩ && dateLE ⟨2025, 9, 25⟩ ⟨2025, 9, 20⟩
       then some "Б" else none) :=
  ⟨c1_interval_inference _ _ _ _ _ _ _ _ _ (by decide) (by decide) (by decide) (by decide)
      (by decide) (Or.inl rfl) (by decide),
   c1_interval_inference _ _ _ _ _ _ _ _ _ (by decide) (by decide) (by decide) (by decide)
      (by decide) (Or.inl rfl) (by decide)⟩

/-! ## Claim C2 -/

/-- C2: shelling priority.  With an `Arrived` interval for another position
covering `D` listed first and a `Shelling` record dated `D` for position
`P1` (present in the payment map), `_get_expected_payment` returns the
payment of `P1`: the shelling pass runs before any interval logic. -/
theorem c2_shelling_priority (pp : List (String × String)) (cy cm : Nat)
    (P1 P2 c1 : String) (a D : Date)
    (hP1 : ppFind pp P1 = some c1) (hP1ne : P1 ≠ "") (hdiff : P2 ≠ P1)
    (hma : inMonth cy cm a) (hmD : inMonth cy cm D) (hcov : dateLE a D = true) :
    getExpectedPayment pp (some cy) (some cm)
        [⟨P2, "прибув", some a, none⟩, ⟨P1, "обстріл", some D, some D⟩] D =
      some c1 := by
  have hs : shellScan [⟨P2, "прибув", some a, none⟩, ⟨P1, "обстріл", some D, some D⟩] D =
      some ⟨P1, "обстріл", some D, some D⟩ := by
    simp [shellScan, List.find?]
  simp only [getExpectedPayment, hs]
  exact lookupPayment_of_ppFind hP1 hP1ne

/-- Witness for C2 at a concrete history. -/
theorem c2_witness :
    getExpectedPayment [("обстріл", "Б"), ("ВП Шлях", "Н")] (some 2025) (some 9)
        [⟨"ВП Шлях", "прибув", some ⟨2025, 9, 3⟩, none⟩,
         ⟨"обстріл", "обстріл", some ⟨2025, 9, 12⟩, some ⟨2025, 9, 12⟩⟩]
        ⟨2025, 9, 12⟩ = some "Б" :=
  c2_shelling_priority _ _ _ _ _ _ _ _ (by decide) (by decide) (by decide) (by decide)
    (by decide) (by decide)

/-! ## Claim C3 -/

/-- C3 counterexample: a marker line carrying a name after the colon yields
no record at all — the whole line is consumed by the
`if target_marker in normalized: collecting = True; continue` branch, so the
trailing text is discarded, not parsed as a first body line. -/
theorem c3_counterexample_inline_name_lost :
    (parsePersonRowFromText initPeriod ⟨2025, 9, 5⟩
        "прибули: Василенко Василь Васильович" "ВП Маріо" "прибув").2 = [] := by
  decide

/-- C3 (amended): a line containing the section marker contributes nothing
itself, whatever trails the colon; it only switches the loop into collecting
mode, so names are taken exclusively from the following lines. -/
theorem c3_marker_line_discarded (marker : String) (collecting : Bool)
    (line : String) (rest : List String)
    (hne : stripStr line ≠ "")
    (hmark : containsSub (pyLower (stripStr line)) marker = true) :
    collectLoop marker collecting (line :: rest) = collectLoop marker true rest := by
  simp only [collectLoop, if_neg hne, hmark, if_true]

/-- Witness for the amended C3: the inline marker line is skipped and the
following line is collected. -/
theorem c3_witness :
    collectLoop "прибули:" false
        ["прибули: Василенко Василь Васильович", "Петренко Петро Петрович"] =
      collectLoop "прибули:" true ["Петренко Петро Петрович"] ∧
    collectLoop "прибули:" true ["Петренко Петро Петрович"] =
      ["Петренко Петро Петрович"] :=
  ⟨c3_marker_line_discarded "прибули:" false "прибули: Василенко Василь Васильович"
      ["Петренко Петро Петрович"] (by decide) (by decide),
   by decide⟩

/-! ## Claim C4 -/

/-- C4 counterexample: a blank line does not terminate a section — the name
standing after the blank line is still collected (`if not line: continue`). -/
theorem c4_counterexample_blank_not_terminator :
    ((parsePersonRowFromText initPeriod ⟨2025, 9, 5⟩
        "прибули:\nІваненко Іван Іванович\n\nПетренко Петро Петрович"
        "ВП Маріо" "прибув").2.map (fun pr => pr.1)) =
      ["Іваненко Іван Іванович", "Петренко Петро Петрович"] := by
  decide

/-- C4 (amended): a blank (or whitespace-only) line inside a section is
skipped and collection continues after it; a run of names ends only at a
subsequent marker line (`прибули:` / `вибули:` / `водій:` / `штурман:`) or
at the end of the cell text. -/
theorem c4_blank_skipped_marker_terminates (marker : String) (rest : List String) :
    (∀ line : String, stripStr line = "" →
      collectLoop marker true (line :: rest) = collectLoop marker true rest) ∧
    (∀ line : String, stripStr line ≠ "" →
      containsSub (pyLower (stripStr line)) marker = false →
      isBreakLine (pyLower (stripStr line)) = true →
      collectLoop marker true (line :: rest) = []) := by
  constructor
  · intro line hb
    simp [collectLoop, hb]
  · intro line hne hmark hbreak
    simp [collectLoop, hne, hmark, hbreak]

/-- Witness for the amended C4: a whitespace-only line is skipped, and a
`вибули:` line terminates a `прибули:` run. -/
theorem c4_witness :
    collectLoop "прибули:" true ("" :: ["Петренко Петро Петрович"]) =
      collectLoop "прибули:" true ["Петренко Петро Петрович"] ∧
    collectLoop "прибули:" true ("вибули:" :: ["Петренко Петро Петрович"]) = [] :=
  ⟨(c4_blank_skipped_marker_terminates "прибули:" ["Петренко Петро Петрович"]).1 ""
      (by decide),
   (c4_blank_skipped_marker_terminates "прибули:" ["Петренко Петро Петрович"]).2 "вибули:"
      (by decide) (by decide) (by decide)⟩

/-! ## Claim C5 -/

/-- C5: the filename heuristic never establishes the reporting month.  After
`__init__` the `check_month` attribute always exists (holding `None`), so
`if not hasattr(self, 'check_month')` is always false: even though a month
name is found in the file stem, the state is returned unchanged.  The first
parsed event date, by contrast, does set the period (`is None` test). -/
theorem c5_filename_month_never_set :
    (monthNames.find? (fun p => containsSub (pyLower "ЖБД вересень 2025") p.1)).isSome =
      true ∧
    setMonthFromFilename 2025 initPeriod "ЖБД вересень 2025" = initPeriod ∧
    (setPeriodFromEventDate initPeriod ⟨2025, 9, 1⟩).checkMonth = some 9 := by
  decide

/-! ## Claim C8 -/

/-- C8: sentinel skip.  Whenever the resolved expected payment normalizes to
one of the sentinel codes `Р` / `ЗВР`, the per-cell check paints nothing and
appends no error, whatever the recorded cell value is. -/
theorem c8_sentinel_skip (pp : List (String × String)) (cy cm : Nat)
    (records : List Rec) (d : Date) (pib : String) (actualRaw : Option String)
    (h : normalizePaymentValue (getExpectedPayment pp (some cy) (some cm) records d) =
          some "Р" ∨
         normalizePaymentValue (getExpectedPayment pp (some cy) (some cm) records d) =
          some "ЗВР") :
    checkCell pib d (getExpectedPayment pp (some cy) (some cm) records d) actualRaw =
      ⟨none, none⟩ := by
  simp only [checkCell]
  rw [if_pos h]

/-- Witness for C8: a shelling day paid with sentinel `Р` is skipped even
though the sheet records `Б`. -/
theorem c8_witness :
    normalizePaymentValue (getExpectedPayment [("обстріл", "Р")] (some 2025) (some 9)
        [⟨"обстріл", "обстріл", some ⟨2025, 9, 7⟩, some ⟨2025, 9, 7⟩⟩] ⟨2025, 9, 7⟩) =
      some "Р" ∧
    checkCell "Коваль Іван Іванович" ⟨2025, 9, 7⟩
        (getExpectedPayment [("обстріл", "Р")] (some 2025) (some 9)
          [⟨"обстріл", "обстріл", some ⟨2025, 9, 7⟩, some ⟨2025, 9, 7⟩⟩] ⟨2025, 9, 7⟩)
        (some "Б") = ⟨none, none⟩ :=
  ⟨by decide,
   c8_sentinel_skip _ _ _ _ _ _ _ (Or.inl (by decide))⟩

/-! ## `hasMonthAttr` invariance (the `check_month` attribute always exists
after `__init__`) -/

theorem setMonthFromFilename_id {nowY : Nat} {per : PeriodState} {stem : String}
    (h : per.hasMonthAttr = true) : setMonthFromFilename nowY per stem = per := by
  simp only [setMonthFromFilename]
  cases hf : monthNames.find? (fun p => containsSub (pyLower stem) p.1) with
  | none => rfl
  | some pr => simp [h]

theorem hasMonthAttr_setPeriodFromEventDate {per : PeriodState} {d : Date}
    (h : per.hasMonthAttr = true) :
    (setPeriodFromEventDate per d).hasMonthAttr = true := by
  unfold setPeriodFromEventDate
  split <;> simp [h]

theorem hasMonthAttr_parsePersonRow {per : PeriodState} {ed : Date} {t p b : String}
    (h : per.hasMonthAttr = true) :
    (parsePersonRowFromText per ed t p b).1.hasMonthAttr = true := by
  simp only [parsePersonRowFromText]
  split <;> simp [h]

theorem period_foldl_addPerson (st : ExtractState) (l : List (String × Rec)) :
    (l.foldl addPerson st).period = st.period := by
  induction l generalizing st with
  | nil => rfl
  | cons pr t ih => simpa [addPerson] using ih _

theorem hasMonthAttr_applyParse {st : ExtractState} {ed : Date} {t p b : String}
    (h : st.period.hasMonthAttr = true) :
    (applyParse st ed t p b).period.hasMonthAttr = true := by
  unfold applyParse
  rw [period_foldl_addPerson]
  show (parsePersonRowFromText st.period ed t p b).1.hasMonthAttr = true
  exact hasMonthAttr_parsePersonRow h

theorem hasMonthAttr_parseIfPos {st : ExtractState} {ed : Date} {t : String}
    {pos : Option String} {b : String} (h : st.period.hasMonthAttr = true) :
    (parseIfPos st ed t pos b).period.hasMonthAttr = true := by
  unfold parseIfPos
  cases pos with
  | none => exact h
  | some p => exact hasMonthAttr_applyParse h

theorem hasMonthAttr_rowParses {st : ExtractState} {ed : Date} {t : String}
    {pos : Option String} {low : String} (h : st.period.hasMonthAttr = true) :
    (rowParses st ed t pos low).period.hasMonthAttr = true := by
  simp only [rowParses]
  split
  · apply hasMonthAttr_parseIfPos
    split
    · apply hasMonthAttr_parseIfPos
      split
      · exact hasMonthAttr_parseIfPos h
      · exact h
    · split
      · exact hasMonthAttr_parseIfPos h
      · exact h
  · split
    · apply hasMonthAttr_parseIfPos
      split
      · exact hasMonthAttr_parseIfPos h
      · exact h
    · split
      · exact hasMonthAttr_parseIfPos h
      · exact h

theorem hasMonthAttr_processRow {st : ExtractState} {ed : Date}
    {pb : Option String × Option String} {cells : List String}
    (h : st.period.hasMonthAttr = true) :
    (processRow st ed pb cells).1.period.hasMonthAttr = true := by
  simp only [processRow]
  split
  · exact h
  · split
    · exact h
    · split <;> split <;>
        first
          | exact hasMonthAttr_applyParse h
          | exact hasMonthAttr_rowParses h

theorem hasMonthAttr_rowLoop {ed : Date} : ∀ (rows : List (List String))
    (st : ExtractState) (pos blk : Option String),
    st.period.hasMonthAttr = true → (rowLoop ed st pos blk rows).period.hasMonthAttr = true := by
  intro rows
  induction rows with
  | nil => intro st pos blk h; exact h
  | cons row rest ih =>
    intro st pos blk h
    exact ih _ _ _ (hasMonthAttr_processRow h)

theorem hasMonthAttr_processTable {st : ExtractState} {table : List (List String)}
    (h : st.period.hasMonthAttr = true) :
    (processTable st table).period.hasMonthAttr = true := by
  simp only [processTable]
  cases hd : (if table.length > 2 ∧ (table.getD 2 []).length > 0 then
      parseDate (stripStr ((table.getD 2 []).getD 0 "")) else none) with
  | none => exact h
  | some d => exact hasMonthAttr_rowLoop _ _ _ _ (hasMonthAttr_setPeriodFromEventDate h)

theorem hasMonthAttr_parseZbdWordOk {nowY : Nat} {st : ExtractState} {stem : String}
    {doc : List (List (List String))} (h : st.period.hasMonthAttr = true) :
    (parseZbdWordOk nowY st stem doc).period.hasMonthAttr = true := by
  simp only [parseZbdWordOk]
  rw [setMonthFromFilename_id h]
  induction doc generalizing st with
  | nil => exact h
  | cons table rest ih => exact ih (hasMonthAttr_processTable h)

theorem hasMonthAttr_parseZbdWord {nowY : Nat} {st : CState} {f : WordFile}
    {input : FileInput} (h : st.extract.period.hasMonthAttr = true) :
    (parseZbdWord nowY st f input).extract.period.hasMonthAttr = true := by
  cases input with
  | missing => exact h
  | raises msg =>
    simp only [parseZbdWord]
    rw [setMonthFromFilename_id h]
    exact h
  | ok doc => exact hasMonthAttr_parseZbdWordOk h

theorem errors_parseZbdWord_mono {nowY : Nat} {st : CState} {f : WordFile}
    {input : FileInput} {e : String} (h : e ∈ st.errors) :
    e ∈ (parseZbdWord nowY st f input).errors := by
  cases input with
  | missing => exact List.mem_append_left _ h
  | raises msg => exact List.mem_append_left _ h
  | ok doc => exact h

theorem errors_processWordFiles_mono {nowY : Nat} {e : String} :
    ∀ (files : List (WordFile × FileInput)) (st : CState), e ∈ st.errors →
    e ∈ (processWordFiles nowY st files).errors := by
  intro files
  induction files with
  | nil => intro st h; exact h
  | cons fi rest ih => intro st h; exact ih _ (errors_parseZbdWord_mono h)

/-! ## Claim C9 -/

/-- C9: per-document failure isolation.  A document that raises while being
read is handled at the file boundary: the run's error list gains one entry
naming that file, the extraction state is otherwise unchanged, and
processing continues with every remaining document; the failure entry is
still present in the final error list. -/
theorem c9_per_document_failure_isolation (nowY : Nat) (st : CState)
    (pre post : List (WordFile × FileInput)) (f : WordFile) (msg : String)
    (h : st.extract.period.hasMonthAttr = true) :
    processWordFiles nowY st (pre ++ (f, FileInput.raises msg) :: post) =
      processWordFiles nowY
        (addErr (processWordFiles nowY st pre) (wordReadError f.name msg)) post ∧
    wordReadError f.name msg ∈
      (processWordFiles nowY st (pre ++ (f, FileInput.raises msg) :: post)).errors := by
  have main : ∀ (pre : List (WordFile × FileInput)) (st : CState),
      st.extract.period.hasMonthAttr = true →
      processWordFiles nowY st (pre ++ (f, FileInput.raises msg) :: post) =
        processWordFiles nowY
          (addErr (processWordFiles nowY st pre) (wordReadError f.name msg)) post := by
    intro pre
    induction pre with
    | nil =>
      intro st h
      show processWordFiles nowY (parseZbdWord nowY st f (FileInput.raises msg)) post = _
      congr 1
      simp only [parseZbdWord, addErr, processWordFiles]
      rw [setMonthFromFilename_id h]
    | cons fi rest ih =>
      intro st h
      exact ih (parseZbdWord nowY st fi.1 fi.2) (hasMonthAttr_parseZbdWord h)
  refine ⟨main pre st h, ?_⟩
  rw [main pre st h]
  apply errors_processWordFiles_mono
  exact List.mem_append_right _ (List.mem_singleton.mpr rfl)

/-- Witness for C9: with one raising document between two readable ones, the
error entry is recorded and the remaining document is still processed. -/
theorem c9_witness :
    processWordFiles 2025 ⟨⟨[("ВП Маріо", "Б")], [], [], initPeriod⟩, []⟩
        ([(⟨"а.docx", "а"⟩, FileInput.ok [])] ++
          (⟨"б.docx", "б"⟩, FileInput.raises "boom") ::
          [(⟨"в.docx", "в"⟩, FileInput.ok [])]) =
      processWordFiles 2025
        (addErr
          (processWordFiles 2025 ⟨⟨[("ВП Маріо", "Б")], [], [], initPeriod⟩, []⟩
            [(⟨"а.docx", "а"⟩, FileInput.ok [])])
          (wordReadError "б.docx" "boom"))
        [(⟨"в.docx", "в"⟩, FileInput.ok [])] ∧
    wordReadError "б.docx" "boom" ∈
      (processWordFiles 2025 ⟨⟨[("ВП Маріо", "Б")], [], [], initPeriod⟩, []⟩
        ([(⟨"а.docx", "а"⟩, FileInput.ok [])] ++
          (⟨"б.docx", "б"⟩, FileInput.raises "boom") ::
          [(⟨"в.docx", "в"⟩, FileInput.ok [])])).errors :=
  c9_per_document_failure_isolation 2025 _ _ _ _ _ rfl

/-! ## Claim C10 -/

/-- C10: the attendance row scan stops at the first blank (falsy) name cell
in column C; rows after it are never processed — they receive no verdict and
produce no not-found error, even if they name a person. -/
theorem c10_row_scan_stops_at_blank (zbd : List (String × List Rec))
    (idx : List (String × String)) (pre post : List (Option String)) (b : Option String)
    (hb : isBlankCell b = true) (hpre : ∀ v ∈ pre, isBlankCell v = false) :
    scanTabelRows zbd idx (pre ++ b :: post) = scanTabelRows zbd idx pre ∧
    (scanTabelRows zbd idx pre).length = pre.length ∧
    tabelScanErrors zbd idx (pre ++ b :: post) = tabelScanErrors zbd idx pre := by
  have h1 : scanTabelRows zbd idx (pre ++ b :: post) = scanTabelRows zbd idx pre := by
    induction pre with
    | nil => simp [scanTabelRows, hb]
    | cons v t ih =>
      have hv : isBlankCell v = false := hpre v (List.mem_cons_self v t)
      have ih2 := ih (fun x hx => hpre x (List.mem_cons_of_mem v hx))
      simp [scanTabelRows, hv, ih2]
  have h2 : (scanTabelRows zbd idx pre).length = pre.length := by
    clear h1
    induction pre with
    | nil => rfl
    | cons v t ih =>
      have hv : isBlankCell v = false := hpre v (List.mem_cons_self v t)
      have ih2 := ih (fun x hx => hpre x (List.mem_cons_of_mem v hx))
      simp [scanTabelRows, hv, ih2]
  exact ⟨h1, h2, by unfold tabelScanErrors; rw [h1]⟩

/-- Witness for C10: a blank cell in the middle stops the scan; the named
row after it is not checked. -/
theorem c10_witness :
    scanTabelRows [] [] ([some "Коваль Іван"] ++ some "" :: [some "Петренко Петро"]) =
      scanTabelRows [] [] [some "Коваль Іван"] ∧
    (scanTabelRows [] [] [some "Коваль Іван"]).length = [some "Коваль Іван"].length ∧
    tabelScanErrors [] [] ([some "Коваль Іван"] ++ some "" :: [some "Петренко Петро"]) =
      tabelScanErrors [] [] [some "Коваль Іван"] :=
  c10_row_scan_stops_at_blank [] [] [some "Коваль Іван"] [some "Петренко Петро"]
    (some "") (by decide) (by decide)

end ZBDCheck
